import Mathlib

/-!
Shallow embedding of the history & completion core of the
inquirer-command-prompt repository, with theorems checking the
natural-language specification against the code.

The embedding translates:
  - src/EphemeralHistory.ts   (in-memory history log)
  - src/FileBackedHistory.ts  (file-persisted history log)
  - src/index.js              (autoCompleterFormatter completion algorithm)
  - src/helpers.ts            (formatIndex, setSpaces, ellipsize, decolorize,
                               formatList display helpers)
JavaScript strings are modelled as Lean String/List Char, JS arrays as
List, and operations that can raise (String.prototype.repeat with a
negative count, JSON.parse) return Option values, with none standing
for the raised exception.
-/

/-- Configuration of a history log: capacity limit (JS number, 0 is falsy
and disables eviction) and exact-match blacklist.  Mirrors the
HistoryConfig interface of src/EphemeralHistory.ts. -/
structure HistoryConfig where
  limit : Nat
  blacklist : List String
  deriving Repr, DecidableEq

/-- State of an EphemeralHistory instance: the entries array, the cursor
historyIndex (an Int, because the constructor initialises it to -1), and
the saved currentLine draft. -/
structure HistState where
  entries : List String
  index : Int
  current : String
  deriving Repr, DecidableEq

namespace EphemeralHistory

/-- Constructor state of src/EphemeralHistory.ts: empty history,
historyIndex -1, currentLine empty. -/
def initState : HistState := { entries := [], index := -1, current := "" }

/-- Translation of EphemeralHistory.add (src/EphemeralHistory.ts).
The JS duplicate test history[history.length - 1] !== value is
getLast? ≠ some value (on an empty array the JS indexing yields
undefined, which differs from every string).  The JS guard
(this.config.limit && length > limit) is limit ≠ 0 ∧ length > limit. -/
def add (cfg : HistoryConfig) (st : HistState) (v : String) : HistState :=
  if v ∈ cfg.blacklist then st
  else
    let entries :=
      if st.entries.getLast? = some v then st.entries
      else
        let e := st.entries ++ [v]
        if cfg.limit ≠ 0 ∧ e.length > cfg.limit then e.drop 1 else e
    { st with entries := entries, index := (entries.length : Int) }

/-- Translation of EphemeralHistory.setCurrent. -/
def setCurrent (st : HistState) (line : String) : HistState :=
  { st with current := line }

/-- Translation of EphemeralHistory.getPrevious: returns the new state and
the returned value (none models the JS undefined sentinel). -/
def getPrevious (st : HistState) : HistState × Option String :=
  if st.index > 0 then
    let i := st.index - 1
    ({ st with index := i }, st.entries.get? i.toNat)
  else
    (st, none)

/-- Translation of EphemeralHistory.getNext: returns the new state and the
returned value (none models the JS undefined sentinel). -/
def getNext (st : HistState) : HistState × Option String :=
  if st.index < (st.entries.length : Int) - 1 then
    let i := st.index + 1
    ({ st with index := i }, st.entries.get? i.toNat)
  else if st.index = (st.entries.length : Int) - 1 then
    ({ st with index := st.index + 1 }, some st.current)
  else
    (st, none)

/-- Folding a whole sequence of add calls over a starting state. -/
def applyAdds (cfg : HistoryConfig) (st : HistState) (seq : List String) : HistState :=
  seq.foldl (add cfg) st

end EphemeralHistory

/-- One step of adjacent-duplicate suppression without any capacity
eviction: append v unless it equals the current last element.  This is
the specification-level description of which added lines survive. -/
def dedupAppend (l : List String) (v : String) : List String :=
  if l.getLast? = some v then l else l ++ [v]

/-- The full sequence of entries surviving adjacent-duplicate suppression,
oldest first, with no capacity limit. -/
def dedupFold (seq : List String) : List String :=
  seq.foldl dedupAppend []

/-- Last n elements of a list, in order (the specification's
"most recently added entries, oldest-first"). -/
def takeLast (n : Nat) (l : List String) : List String :=
  l.drop (l.length - n)

theorem takeLast_length_le (n : Nat) (l : List String) :
    (takeLast n l).length ≤ n := by
  simp only [takeLast, List.length_drop]
  omega

theorem getLast?_drop {α : Type} (n : Nat) :
    ∀ (l : List α), n < l.length → (l.drop n).getLast? = l.getLast? := by
  induction n with
  | zero => intro l _; rfl
  | succ m ih =>
    intro l h
    match l with
    | a :: t =>
      simp only [List.drop_succ_cons]
      have ht : m < t.length := by simpa using h
      rw [ih t ht]
      match t, ht with
      | b :: t', _ => rw [List.getLast?_cons_cons]

theorem getLast?_takeLast (C : Nat) (hC : 1 ≤ C) (l : List String) :
    (takeLast C l).getLast? = l.getLast? := by
  match l with
  | [] => simp [takeLast]
  | a :: t =>
    apply getLast?_drop
    simp only [List.length_cons]
    omega

/-- Key step for the capacity invariant: one add on a state whose entries
are the last C surviving lines produces the last C of the extended
surviving sequence. -/
theorem add_takeLast (C : Nat) (hC : 1 ≤ C) (D : List String) (i : Int) (cur v : String) :
    EphemeralHistory.add ⟨C, []⟩ ⟨takeLast C D, i, cur⟩ v
      = ⟨takeLast C (dedupAppend D v), (takeLast C (dedupAppend D v)).length, cur⟩ := by
  unfold EphemeralHistory.add dedupAppend
  simp only [List.mem_nil_iff, if_false, getLast?_takeLast C hC]
  by_cases hdup : D.getLast? = some v
  · rw [if_pos hdup, if_pos hdup]
  · rw [if_neg hdup, if_neg hdup]
    by_cases hlt : D.length < C
    · have h1 : takeLast C D = D := by
        unfold takeLast
        have h : D.length - C = 0 := by omega
        rw [h, List.drop_zero]
      have h2 : takeLast C (D ++ [v]) = D ++ [v] := by
        unfold takeLast
        have h : (D ++ [v]).length - C = 0 := by
          simp only [List.length_append, List.length_cons, List.length_nil]
          omega
        rw [h, List.drop_zero]
      have h3 : ¬(C ≠ 0 ∧ (takeLast C D ++ [v]).length > C) := by
        rw [h1]
        simp only [List.length_append, List.length_cons, List.length_nil]
        omega
      rw [if_neg h3, h1, h2]
    · have hge : C ≤ D.length := by omega
      have hlen : (takeLast C D).length = C := by
        unfold takeLast; simp only [List.length_drop]; omega
      have hcond : (C ≠ 0 ∧ (takeLast C D ++ [v]).length > C) := by
        refine ⟨by omega, ?_⟩
        simp only [List.length_append, hlen, List.length_cons, List.length_nil]
        omega
      rw [if_pos hcond]
      have hdropeq : (takeLast C D ++ [v]).drop 1 = takeLast C (D ++ [v]) := by
        rw [List.drop_append_of_le_length (by omega : 1 ≤ (takeLast C D).length)]
        unfold takeLast
        rw [List.drop_drop]
        have h5 : (D ++ [v]).length - C = D.length - C + 1 := by
          simp only [List.length_append, List.length_cons, List.length_nil]
          omega
        rw [h5]
        rw [List.drop_append_of_le_length (by omega : D.length - C + 1 ≤ D.length)]
      rw [hdropeq]

theorem applyAdds_takeLast (C : Nat) (hC : 1 ≤ C) :
    ∀ (seq D : List String) (i : Int) (cur : String),
      (EphemeralHistory.applyAdds ⟨C, []⟩ ⟨takeLast C D, i, cur⟩ seq).entries
        = takeLast C (seq.foldl dedupAppend D) := by
  intro seq
  induction seq with
  | nil => intro D i cur; rfl
  | cons v seq ih =>
    intro D i cur
    show (EphemeralHistory.applyAdds _ (EphemeralHistory.add _ _ v) seq).entries = _
    rw [add_takeLast C hC]
    exact ih (dedupAppend D v) _ cur

/-- Eviction loop of the specification's reference description of add:
drop from the front while the length exceeds the capacity. -/
def evictWhile (limit : Nat) : List String → List String
  | [] => []
  | a :: l => if (a :: l).length > limit then evictWhile limit l else a :: l

/-- Reference definition of add, following the specification's words:
no-op on blacklisted lines; on a duplicate of the last entry only the
cursor is reset; otherwise append, then evict from index 0 while the
count exceeds the capacity, and point the cursor at the draft slot. -/
def addRef (cfg : HistoryConfig) (st : HistState) (v : String) : HistState :=
  if v ∈ cfg.blacklist then st
  else if st.entries.getLast? = some v then
    { st with index := (st.entries.length : Int) }
  else
    let e := evictWhile cfg.limit (st.entries ++ [v])
    { st with entries := e, index := (e.length : Int) }

theorem evictWhile_of_le (limit : Nat) (l : List String) (h : l.length ≤ limit) :
    evictWhile limit l = l := by
  match l with
  | [] => rfl
  | a :: t => rw [evictWhile, if_neg (by omega)]

theorem evictWhile_succ (limit : Nat) (l : List String) (h : l.length = limit + 1) :
    evictWhile limit l = l.drop 1 := by
  match l with
  | a :: t =>
    rw [evictWhile, if_pos (by omega)]
    rw [evictWhile_of_le limit t (by simp at h; omega)]
    rfl

theorem add_eq_addRef (cfg : HistoryConfig) (st : HistState) (v : String)
    (hlim : 0 < cfg.limit) (hinv : st.entries.length ≤ cfg.limit) :
    EphemeralHistory.add cfg st v = addRef cfg st v := by
  unfold EphemeralHistory.add addRef
  by_cases hb : v ∈ cfg.blacklist
  · rw [if_pos hb, if_pos hb]
  · rw [if_neg hb, if_neg hb]
    by_cases hdup : st.entries.getLast? = some v
    · simp only [if_pos hdup]
    · simp only [if_neg hdup]
      by_cases hfull : st.entries.length = cfg.limit
      · have hc : cfg.limit ≠ 0 ∧ (st.entries ++ [v]).length > cfg.limit := by
          simp only [List.length_append, List.length_cons, List.length_nil]
          omega
        simp only [if_pos hc]
        rw [evictWhile_succ cfg.limit _ (by simp; omega)]
      · have hc : ¬(cfg.limit ≠ 0 ∧ (st.entries ++ [v]).length > cfg.limit) := by
          simp only [List.length_append, List.length_cons, List.length_nil]
          omega
        simp only [if_neg hc]
        rw [evictWhile_of_le cfg.limit _ (by simp; omega)]

/-- Claim C1: for every capacity C > 0 and every sequence of add calls
starting from the empty log, the entry count stays at most C and the
stored entries are exactly the most recent of the lines surviving
adjacent-duplicate suppression, oldest-first.  Stated for arbitrary
sequences, which covers the state after each individual call. -/
theorem capacity_invariant (C : Nat) (hC : 0 < C) (seq : List String) :
    (EphemeralHistory.applyAdds ⟨C, []⟩ EphemeralHistory.initState seq).entries.length ≤ C
    ∧ (EphemeralHistory.applyAdds ⟨C, []⟩ EphemeralHistory.initState seq).entries
        = takeLast C (dedupFold seq) := by
  have hinit : EphemeralHistory.initState = ⟨takeLast C [], -1, ""⟩ := by
    simp [EphemeralHistory.initState, takeLast]
  rw [hinit, applyAdds_takeLast C hC seq [] (-1) ""]
  exact ⟨takeLast_length_le C _, rfl⟩

/-- Witness for capacity_invariant at the concrete capacity 2 and
sequence x, x, y, z: the duplicate x is suppressed and x is evicted. -/
theorem capacity_invariant_witness :
    (EphemeralHistory.applyAdds ⟨2, []⟩ EphemeralHistory.initState
        ["x", "x", "y", "z"]).entries = ["y", "z"] :=
  ((capacity_invariant 2 (by decide) ["x", "x", "y", "z"]).2).trans (by decide)

/-- Claim C2 counterexample: from a state whose entry count already
exceeds the capacity (reachable, since load never truncates), the code
evicts a single oldest entry, while the claim's reference definition
evicts from index 0 as long as the count exceeds the capacity, so the
two disagree at this concrete input. -/
theorem add_ref_counterexample :
    EphemeralHistory.add ⟨1, []⟩ ⟨["a", "b", "c"], 3, ""⟩ "d"
      ≠ addRef ⟨1, []⟩ ⟨["a", "b", "c"], 3, ""⟩ "d" := by decide

/-- Claim C2 (amended): on every state satisfying the capacity invariant
entries.length ≤ capacity (with a positive capacity), add coincides with
the reference definition; every non-blacklisted add finishes with
cursor = entries.length; and the two duplicate-suppression examples
add x; add x = [x] and add x; add y; add x = [x, y, x] hold. -/
theorem add_matches_reference (cfg : HistoryConfig) (st : HistState) (v : String)
    (hlim : 0 < cfg.limit) (hinv : st.entries.length ≤ cfg.limit) :
    EphemeralHistory.add cfg st v = addRef cfg st v
    ∧ (v ∉ cfg.blacklist →
        (EphemeralHistory.add cfg st v).index
          = ((EphemeralHistory.add cfg st v).entries.length : Int))
    ∧ (EphemeralHistory.applyAdds ⟨100, []⟩ EphemeralHistory.initState
        ["x", "x"]).entries = ["x"]
    ∧ (EphemeralHistory.applyAdds ⟨100, []⟩ EphemeralHistory.initState
        ["x", "y", "x"]).entries = ["x", "y", "x"] := by
  refine ⟨add_eq_addRef cfg st v hlim hinv, ?_, by decide, by decide⟩
  intro hb
  unfold EphemeralHistory.add
  simp only [if_neg hb]

/-- Witness for add_matches_reference at a concrete in-capacity state. -/
theorem add_matches_reference_witness :
    EphemeralHistory.add ⟨2, []⟩ ⟨["x"], 1, ""⟩ "y"
      = addRef ⟨2, []⟩ ⟨["x"], 1, ""⟩ "y" :=
  (add_matches_reference ⟨2, []⟩ ⟨["x"], 1, ""⟩ "y" (by decide) (by decide)).1

/-- Claim C3: navigation round-trip.  After adding a, b, c the cursor is
at the draft position 3; three getPrevious calls return c, b, a and
leave the cursor at 0; a fourth returns the no-change sentinel and
leaves the state unchanged; three getNext calls then return b, c and
the saved draft line, with the cursor back at 3; a fourth returns the
no-change sentinel.  Stated for an arbitrary saved draft d. -/
theorem navigation_round_trip (d : String) :
    EphemeralHistory.setCurrent
        (EphemeralHistory.applyAdds ⟨100, []⟩ EphemeralHistory.initState ["a", "b", "c"]) d
      = ⟨["a", "b", "c"], 3, d⟩
    ∧ EphemeralHistory.getPrevious ⟨["a", "b", "c"], 3, d⟩ = (⟨["a", "b", "c"], 2, d⟩, some "c")
    ∧ EphemeralHistory.getPrevious ⟨["a", "b", "c"], 2, d⟩ = (⟨["a", "b", "c"], 1, d⟩, some "b")
    ∧ EphemeralHistory.getPrevious ⟨["a", "b", "c"], 1, d⟩ = (⟨["a", "b", "c"], 0, d⟩, some "a")
    ∧ EphemeralHistory.getPrevious ⟨["a", "b", "c"], 0, d⟩ = (⟨["a", "b", "c"], 0, d⟩, none)
    ∧ EphemeralHistory.getNext ⟨["a", "b", "c"], 0, d⟩ = (⟨["a", "b", "c"], 1, d⟩, some "b")
    ∧ EphemeralHistory.getNext ⟨["a", "b", "c"], 1, d⟩ = (⟨["a", "b", "c"], 2, d⟩, some "c")
    ∧ EphemeralHistory.getNext ⟨["a", "b", "c"], 2, d⟩ = (⟨["a", "b", "c"], 3, d⟩, some d)
    ∧ EphemeralHistory.getNext ⟨["a", "b", "c"], 3, d⟩ = (⟨["a", "b", "c"], 3, d⟩, none) :=
  ⟨rfl, rfl, rfl, rfl, rfl, rfl, rfl, rfl, rfl⟩

/-! Completion matching (src/index.js autoCompleterFormatter).  The JS
code builds RegExp("^" + sanitizedLine) and tests each candidate, where
sanitizedLine escapes every character of the class
[\\.+*?^$\[\](){}\/'#:!=|] with a backslash.  The regex fragment
reachable from such patterns (literal characters, backslash escapes of
punctuation, and the dot wildcard) is modelled by RItem; an anchored
test is a prefix match of the parsed items. -/

/-- Characters escaped by the sanitizing replace in autoCompleterFormatter
(the JS character class with backslash, dot, and the listed punctuation). -/
def metaChars : List Char :=
  ['\\', '.', '+', '*', '?', '^', '$', '[', ']', '(', ')', '\x7b', '\x7d', '/', '\'', '#', ':', '!', '=', '|']

/-- Translation of line.replace(metacharacter class, backslash escape). -/
def sanitize (s : String) : String :=
  ⟨s.data.flatMap (fun c => if c ∈ metaChars then ['\\', c] else [c])⟩

/-- Items of the regex fragment reachable from sanitized patterns: a
literal character or the dot wildcard. -/
inductive RItem where
  | lit (c : Char)
  | dot
  deriving Repr, DecidableEq

/-- Parse a pattern of the modelled fragment: a backslash escapes the
next character to a literal (the escaped characters arising here are
punctuation, for which JS regex escape semantics is the literal
character), an unescaped dot is the wildcard, anything else is literal. -/
def parseItems : List Char → Option (List RItem)
  | [] => some []
  | c :: rest =>
    if c = '\\' then
      match rest with
      | [] => none
      | d :: rest2 => (parseItems rest2).map (RItem.lit d :: ·)
    else if c = '.' then
      (parseItems rest).map (RItem.dot :: ·)
    else
      (parseItems rest).map (RItem.lit c :: ·)

/-- Anchored matching of parsed items against the start of a string. -/
def matchesAt : List RItem → List Char → Bool
  | [], _ => true
  | RItem.lit c :: items, d :: chars => c = d && matchesAt items chars
  | RItem.dot :: items, _ :: chars => matchesAt items chars
  | _ :: _, [] => false

/-- Model of RegExp("^" + pat).test(el) for patterns of the fragment. -/
def regexTestStart (pat el : String) : Bool :=
  match parseItems pat.data with
  | some items => matchesAt items el.data
  | none => false

theorem parseItems_sanitize (l : List Char) :
    parseItems (l.flatMap (fun c => if c ∈ metaChars then ['\\', c] else [c]))
      = some (l.map RItem.lit) := by
  induction l with
  | nil => rfl
  | cons c l ih =>
    simp only [List.flatMap_cons, List.append_eq, List.nil_append]
    by_cases hm : c ∈ metaChars
    · rw [if_pos hm]
      show parseItems ('\\' :: c :: _) = _
      simp only [parseItems, if_true, List.append_eq, List.nil_append, ih, Option.map_some, List.map_cons]
      rfl
    · rw [if_neg hm]
      show parseItems (c :: _) = _
      have h1 : ¬(c = '\\') := fun h => hm (h ▸ (by decide))
      have h2 : ¬(c = '.') := fun h => hm (h ▸ (by decide))
      rw [parseItems.eq_def]
      simp only [if_neg h1, if_neg h2, List.append_eq, List.nil_append, ih, Option.map_some, List.map_cons]
      rfl

theorem matchesAt_lits (l : List Char) :
    ∀ (el : List Char), matchesAt (l.map RItem.lit) el = l.isPrefixOf el := by
  induction l with
  | nil => intro el; cases el <;> rfl
  | cons c l ih =>
    intro el
    match el with
    | [] => rfl
    | d :: el =>
      show (c = d && matchesAt (l.map RItem.lit) el) = (c == d && l.isPrefixOf el)
      rw [ih el]
      rfl

/-- Helper: the sanitized anchored regex test is exactly a literal
starts-with test. -/
theorem sanitize_matches (line el : String) :
    regexTestStart (sanitize line) el = line.data.isPrefixOf el.data := by
  have h := parseItems_sanitize line.data
  unfold regexTestStart
  rw [show (sanitize line).data
        = line.data.flatMap (fun c => if c ∈ metaChars then ['\\', c] else [c]) from rfl, h]
  exact matchesAt_lits line.data el.data

/-- Claim C5: sanitizing makes the partial line a literal anchored
prefix pattern: for every line and candidate, the sanitized regex test
is exactly a literal starts-with test; in particular the partial line
a.b matches the candidate a.b but not axb, while the unsanitized
pattern a.b would also match axb (dot as wildcard). -/
theorem literal_match_safety :
    (∀ (line el : String),
        regexTestStart (sanitize line) el = line.data.isPrefixOf el.data)
    ∧ regexTestStart (sanitize "a.b") "a.b" = true
    ∧ regexTestStart (sanitize "a.b") "axb" = false
    ∧ regexTestStart "a.b" "axb" = true :=
  ⟨fun line el => sanitize_matches line el, by decide, by decide, by decide⟩

/-- Longest common prefix of two character lists (specification-level
definition of the common extension computed by the scan loop). -/
def lcp2 : List Char → List Char → List Char
  | a :: x, b :: y => if a = b then a :: lcp2 x y else []
  | _, _ => []

/-- Longest common prefix of a list of character lists: fold of lcp2
over the tail starting from the head (empty for the empty list). -/
def lcpAll : List (List Char) → List Char
  | [] => []
  | m :: ms => ms.foldl lcp2 m

/-- Translation of the inner loop body of the common-prefix scan in
autoCompleterFormatter (src/index.js): the character at position i if
every match has one there and they all agree with the first match
(the JS code breaks out of the labelled loop otherwise). -/
def commonCharAt : List (List Char) → Nat → Option Char
  | [], _ => none
  | m :: ms, i =>
    (m.get? i).bind (fun c => if ms.all (fun l => l.get? i = some c) then some c else none)

/-- Translation of the labelled LOOP of autoCompleterFormatter: scan
character positions from i for at most fuel steps (the loop bound
i < max), collecting common characters until a break. -/
def scanFrom (ms : List (List Char)) : Nat → Nat → List Char
  | _, 0 => []
  | i, fuel + 1 =>
    match commonCharAt ms i with
    | some c => c :: scanFrom ms (i + 1) fuel
    | none => []

theorem lcp2_length_le_left : ∀ (x y : List Char), (lcp2 x y).length ≤ x.length := by
  intro x
  induction x with
  | nil => intro y; cases y <;> simp [lcp2]
  | cons a x ih =>
    intro y
    cases y with
    | nil => simp [lcp2]
    | cons b y =>
      rw [lcp2]
      by_cases hab : a = b
      · rw [if_pos hab]
        simp only [List.length_cons]
        exact Nat.succ_le_succ (ih y)
      · rw [if_neg hab]; simp

theorem lcp2_get?_lt : ∀ (x y : List Char) (i : Nat), i < (lcp2 x y).length →
    x.get? i = (lcp2 x y).get? i ∧ y.get? i = (lcp2 x y).get? i := by
  intro x
  induction x with
  | nil => intro y i h; cases y <;> simp [lcp2] at h
  | cons a x ih =>
    intro y i h
    cases y with
    | nil => simp [lcp2] at h
    | cons b y =>
      rw [lcp2] at h ⊢
      by_cases hab : a = b
      · rw [if_pos hab] at h ⊢
        cases i with
        | zero => subst hab; exact ⟨rfl, rfl⟩
        | succ j =>
          simp only [List.get?_cons_succ] at h ⊢
          exact ih y j (by simpa using h)
      · rw [if_neg hab] at h; simp at h

theorem lcp2_stop : ∀ (x y : List Char),
    x.get? (lcp2 x y).length = none ∨ y.get? (lcp2 x y).length = none
    ∨ x.get? (lcp2 x y).length ≠ y.get? (lcp2 x y).length := by
  intro x
  induction x with
  | nil => intro y; left; rfl
  | cons a x ih =>
    intro y
    cases y with
    | nil => right; left; rfl
    | cons b y =>
      rw [lcp2]
      by_cases hab : a = b
      · rw [if_pos hab]
        simp only [List.length_cons, List.get?_cons_succ]
        exact ih y
      · rw [if_neg hab]
        right; right
        simp only [List.length_nil, List.get?_cons_zero]
        intro h
        exact hab (by injection h)

theorem lcpAll_le_head : ∀ (ms : List (List Char)) (m : List Char),
    (ms.foldl lcp2 m).length ≤ m.length := by
  intro ms
  induction ms with
  | nil => intro m; exact le_rfl
  | cons l ms ih =>
    intro m
    calc ((l :: ms).foldl lcp2 m).length = (ms.foldl lcp2 (lcp2 m l)).length := rfl
    _ ≤ (lcp2 m l).length := ih (lcp2 m l)
    _ ≤ m.length := lcp2_length_le_left m l

theorem commonCharAt_eq_lcp : ∀ (ms : List (List Char)) (m : List Char) (i : Nat),
    i ≤ (lcpAll (m :: ms)).length →
    commonCharAt (m :: ms) i = (lcpAll (m :: ms)).get? i := by
  intro ms
  induction ms with
  | nil =>
    intro m i _
    show commonCharAt [m] i = m.get? i
    rw [commonCharAt]
    cases h : m.get? i with
    | none => rfl
    | some c => simp
  | cons l ms ih =>
    intro m i hi
    have hchg : lcpAll (m :: l :: ms) = lcpAll (lcp2 m l :: ms) := rfl
    rw [hchg] at hi ⊢
    rw [← ih (lcp2 m l) i hi]
    have hle : (lcpAll (lcp2 m l :: ms)).length ≤ (lcp2 m l).length :=
      lcpAll_le_head ms (lcp2 m l)
    by_cases hlt : i < (lcp2 m l).length
    · obtain ⟨c, hg⟩ : ∃ c, (lcp2 m l).get? i = some c := by
        rw [List.get?_eq_get hlt]; exact ⟨_, rfl⟩
      obtain ⟨hm, hl⟩ := lcp2_get?_lt m l i hlt
      rw [hg] at hm hl
      rw [commonCharAt, commonCharAt, hm, hg]
      have hpl : decide (l.get? i = some c) = true := by
        rw [decide_eq_true_eq]; exact hl
      simp only [Option.some_bind, List.all_cons, hpl, Bool.true_and]
    · have hieq : i = (lcp2 m l).length := by omega
      have hg : (lcp2 m l).get? i = none := by
        rw [List.get?_eq_none]; omega
      rw [commonCharAt, commonCharAt, hg]
      subst hieq
      rcases lcp2_stop m l with hst | hst | hst
      · rw [hst]
        rfl
      · cases hm : m.get? (lcp2 m l).length with
        | none => rfl
        | some c =>
          have hpl : decide (l.get? (lcp2 m l).length = some c) = false :=
            decide_eq_false (fun h => (Option.some_ne_none c (hst.symm.trans h).symm).elim)
          simp only [Option.some_bind, Option.none_bind, List.all_cons, hpl, Bool.false_and]
          rfl
      · cases hm : m.get? (lcp2 m l).length with
        | none => rfl
        | some c =>
          have hpl : decide (l.get? (lcp2 m l).length = some c) = false :=
            decide_eq_false (fun h => hst (hm.trans h.symm))
          simp only [Option.some_bind, Option.none_bind, List.all_cons, hpl, Bool.false_and]
          rfl

theorem scanFrom_eq (m0 : List Char) (ms0 : List (List Char)) :
    ∀ (fuel i : Nat), i ≤ (lcpAll (m0 :: ms0)).length →
      (lcpAll (m0 :: ms0)).length ≤ i + fuel →
      scanFrom (m0 :: ms0) i fuel = (lcpAll (m0 :: ms0)).drop i := by
  intro fuel
  induction fuel with
  | zero =>
    intro i h1 h2
    rw [scanFrom]
    rw [List.drop_eq_nil_of_le (by omega)]
  | succ f ih =>
    intro i h1 h2
    by_cases hlt : i < (lcpAll (m0 :: ms0)).length
    · have hg : (lcpAll (m0 :: ms0)).get? i
          = some ((lcpAll (m0 :: ms0)).get ⟨i, hlt⟩) := List.get?_eq_get hlt
      rw [scanFrom, commonCharAt_eq_lcp ms0 m0 i h1, hg]
      rw [ih (i + 1) (by omega) (by omega)]
      exact List.getElem_cons_drop _ _ hlt
    · have hieq : i = (lcpAll (m0 :: ms0)).length := by omega
      have hg : (lcpAll (m0 :: ms0)).get? i = none := by
        rw [List.get?_eq_none]; omega
      rw [scanFrom, commonCharAt_eq_lcp ms0 m0 i h1, hg]
      rw [List.drop_eq_nil_of_le (by omega)]

theorem lcp2_extends_common : ∀ (p x y : List Char), p.IsPrefix x → p.IsPrefix y →
    p.IsPrefix (lcp2 x y) := by
  intro p
  induction p with
  | nil => intro x y _ _; exact List.nil_prefix
  | cons a p ih =>
    intro x y hx hy
    obtain ⟨tx, rfl⟩ := hx
    obtain ⟨ty, rfl⟩ := hy
    simp only [List.cons_append]
    rw [lcp2, if_pos rfl]
    refine List.cons_prefix_cons.mpr ⟨rfl, ?_⟩
    exact ih (p ++ tx) (p ++ ty) (List.prefix_append p tx) (List.prefix_append p ty)

theorem lcpAll_extends_common : ∀ (ms : List (List Char)) (m : List Char) (p : List Char),
    p.IsPrefix m → (∀ x ∈ ms, p.IsPrefix x) → p.IsPrefix (ms.foldl lcp2 m) := by
  intro ms
  induction ms with
  | nil => intro m p hm _; exact hm
  | cons l ms ih =>
    intro m p hm hall
    exact ih (lcp2 m l) p (lcp2_extends_common p m l hm (hall l (by simp)))
      (fun x hx => hall x (by simp [hx]))

theorem le_foldl_maxlen : ∀ (ms : List String) (acc : Nat),
    (∀ x ∈ ms, x.length ≤ ms.foldl (fun a el => Nat.max a el.length) acc)
    ∧ acc ≤ ms.foldl (fun a el => Nat.max a el.length) acc := by
  intro ms
  induction ms with
  | nil => intro acc; exact ⟨by simp, le_rfl⟩
  | cons y ms ih =>
    intro acc
    constructor
    · intro x hx
      rcases List.mem_cons.mp hx with hx | hx
      · subst hx
        calc x.length ≤ Nat.max acc x.length := Nat.le_max_right _ _
        _ ≤ ms.foldl (fun a el => Nat.max a el.length) (Nat.max acc x.length) :=
            (ih (Nat.max acc x.length)).2
      · exact (ih (Nat.max acc y.length)).1 x hx
    · calc acc ≤ Nat.max acc y.length := Nat.le_max_left _ _
      _ ≤ ms.foldl (fun a el => Nat.max a el.length) (Nat.max acc y.length) :=
          (ih (Nat.max acc y.length)).2

/-- Result of autoCompleterFormatter: single s is the JS object with a
match field (a completion to splice in), multiple l the object with a
matches field (the ambiguous list for menu display). -/
inductive ACResult where
  | single (s : String)
  | multiple (l : List String)
  deriving Repr, DecidableEq

/-- Translation of autoCompleterFormatter (src/index.js, string-list
candidates, so the optional leading options object with a filter
function is absent and the post-filter is the identity).  Candidates
are filtered by the anchored sanitized regex test; with more than one
match the common-extension scan runs from the partial line's length up
to the longest match length. -/
def autoCompleterFormatter (line : String) (cmds : List String) : ACResult :=
  let filtered := cmds.filter (fun el => regexTestStart (sanitize line) el)
  let maxLen := filtered.foldl (fun a el => Nat.max a el.length) 0
  match filtered with
  | [] => ACResult.single line
  | [f] => ACResult.single f
  | f1 :: f2 :: fs =>
    let common := scanFrom ((f1 :: f2 :: fs).map String.data) line.length (maxLen - line.length)
    if common.isEmpty then ACResult.multiple (f1 :: f2 :: fs)
    else ACResult.single (line ++ String.mk common)

/-- Claim C4: with more than one prefix match, the formatter returns
the single completion consisting of the longest common prefix of the
matches when that extends beyond the partial line, and the full
ambiguous match list otherwise. -/
theorem completion_common_prefix_expansion (line : String) (cmds : List String)
    (h2 : 2 ≤ (cmds.filter (fun el => regexTestStart (sanitize line) el)).length) :
    autoCompleterFormatter line cmds
      = (if line.length
            < (lcpAll ((cmds.filter (fun el => regexTestStart (sanitize line) el)).map String.data)).length
         then ACResult.single
            (String.mk (lcpAll ((cmds.filter (fun el => regexTestStart (sanitize line) el)).map String.data)))
         else ACResult.multiple (cmds.filter (fun el => regexTestStart (sanitize line) el))) := by
  rcases hF : cmds.filter (fun el => regexTestStart (sanitize line) el) with _ | ⟨f1, _ | ⟨f2, fs⟩⟩
  · rw [hF] at h2; simp at h2
  · rw [hF] at h2; simp at h2
  · simp only [autoCompleterFormatter]
    rw [hF]
    have hpref : ∀ x ∈ f1 :: f2 :: fs, line.data.IsPrefix x.data := by
      intro x hx
      have hmem : x ∈ cmds.filter (fun el => regexTestStart (sanitize line) el) := by
        rw [hF]; exact hx
      have htest : regexTestStart (sanitize line) x = true := (List.mem_filter.mp hmem).2
      rw [sanitize_matches] at htest
      exact List.isPrefixOf_iff_prefix.mp htest
    have hLpref : line.data.IsPrefix (lcpAll ((f1 :: f2 :: fs).map String.data)) := by
      show line.data.IsPrefix (((f2 :: fs).map String.data).foldl lcp2 f1.data)
      apply lcpAll_extends_common
      · exact hpref f1 (by simp)
      · intro x hx
        simp only [List.map_cons, List.mem_cons, List.mem_map] at hx
        rcases hx with hx | ⟨y, hy, rfl⟩
        · exact hx ▸ hpref f2 (by simp)
        · exact hpref y (by simp [hy])
    have hLhead : (lcpAll ((f1 :: f2 :: fs).map String.data)).length ≤ f1.length := by
      show (((f2 :: fs).map String.data).foldl lcp2 f1.data).length ≤ f1.data.length
      exact lcpAll_le_head _ _
    have hmax := le_foldl_maxlen (f1 :: f2 :: fs) 0
    have hf1max : f1.length ≤ (f1 :: f2 :: fs).foldl (fun a el => Nat.max a el.length) 0 :=
      hmax.1 f1 (by simp)
    have hlinelen : line.length = line.data.length := rfl
    have hlineL : line.length ≤ (lcpAll ((f1 :: f2 :: fs).map String.data)).length := by
      rw [hlinelen]; exact hLpref.length_le
    have hLhead2 : (lcpAll (f1.data :: (f2 :: fs).map String.data)).length ≤ f1.length :=
      hLhead
    have hlineL2 : line.length ≤ (lcpAll (f1.data :: (f2 :: fs).map String.data)).length :=
      hlineL
    have hfuel : (lcpAll (f1.data :: (f2 :: fs).map String.data)).length
        ≤ line.length + ((f1 :: f2 :: fs).foldl (fun a el => Nat.max a el.length) 0 - line.length) := by
      omega
    have hscan := scanFrom_eq (f1.data) ((f2 :: fs).map String.data)
      ((f1 :: f2 :: fs).foldl (fun a el => Nat.max a el.length) 0 - line.length)
      line.length hlineL2 hfuel
    show (let common := scanFrom ((f1 :: f2 :: fs).map String.data) line.length
            ((f1 :: f2 :: fs).foldl (fun a el => Nat.max a el.length) 0 - line.length)
          if common.isEmpty then ACResult.multiple (f1 :: f2 :: fs)
          else ACResult.single (line ++ String.mk common)) = _
    rw [show ((f1.data :: (f2 :: fs).map String.data)) = ((f1 :: f2 :: fs).map String.data) from rfl] at hscan
    simp only [hscan]
    by_cases hc : line.length < (lcpAll ((f1 :: f2 :: fs).map String.data)).length
    · have hne : ((lcpAll ((f1 :: f2 :: fs).map String.data)).drop line.length).isEmpty = false := by
        rcases hdrop : (lcpAll ((f1 :: f2 :: fs).map String.data)).drop line.length with _ | ⟨c0, cs⟩
        · exfalso
          have := List.drop_eq_nil_iff.mp hdrop
          omega
        · rfl
      rw [hne, if_pos hc]
      simp only [Bool.false_eq_true, if_false]
      congr 1
      obtain ⟨t, ht⟩ := hLpref
      have hdrop : (lcpAll ((f1 :: f2 :: fs).map String.data)).drop line.length = t := by
        rw [← ht, hlinelen, List.drop_left]
      rw [hdrop]
      show String.mk (line.data ++ t) = _
      rw [ht]
    · have hge : (lcpAll ((f1 :: f2 :: fs).map String.data)).length ≤ line.length := by omega
      have hemp : ((lcpAll ((f1 :: f2 :: fs).map String.data)).drop line.length).isEmpty = true := by
        rw [List.drop_eq_nil_of_le hge]
        rfl
      rw [hemp, if_neg hc]
      simp only [if_true]

/-- Witness for completion_common_prefix_expansion: candidates foobar
and foobaz with partial line f give the unique completion fooba. -/
theorem completion_common_prefix_expansion_witness :
    autoCompleterFormatter "f" ["foobar", "foobaz"] = ACResult.single "fooba" := by
  have h := completion_common_prefix_expansion "f" ["foobar", "foobaz"] (by decide)
  exact h.trans (by decide)


/-! Display formatting helpers (src/helpers.ts).  ellipsize and
decolorize are total functions of the model (JS substring clamps its
arguments), while formatIndex, setSpaces and formatList return Option
because String.prototype.repeat raises RangeError on a negative
count. -/

/-- Model of JS String.prototype.repeat on a count that may be negative:
a negative count raises RangeError, modelled as none. -/
def jsRepeat (s : String) (n : Int) : Option String :=
  if n < 0 then none
  else some (String.join (List.replicate n.toNat s))

/-- Translation of formatIndex (src/helpers.ts): pad the index i with
leading spaces to the digit count of the limit (a falsy limit 0 becomes
100); the repeat count goes negative when i has more digits. -/
def formatIndex (i : Nat) (limit : Nat) : Option String :=
  let eff := if limit = 0 then 100 else limit
  let len := (Nat.repr eff).length
  (jsRepeat " " ((len : Int) - ((Nat.repr i).length : Int))).map (· ++ Nat.repr i)

/-- ANSI escape parameter munching and stripping, translation of the
regex replace in decolorize (src/helpers.ts): occurrences of ESC [
followed by digits or semicolons and a final m are removed.  The
mutually recursive scan mirrors the left-to-right global replace: a
failed candidate match emits its pending characters unchanged and
resumes at the character that broke it (no earlier character can start
a match, since matches start only at ESC). -/
def ansiEsc : Char := Char.ofNat 27

mutual

def stripNorm : List Char → List Char
  | [] => []
  | c :: rest => if c = ansiEsc then stripEsc rest else c :: stripNorm rest

def stripEsc : List Char → List Char
  | [] => [ansiEsc]
  | c :: rest =>
    if c = '[' then stripPar [] rest
    else if c = ansiEsc then ansiEsc :: stripEsc rest
    else ansiEsc :: c :: stripNorm rest

def stripPar (params : List Char) : List Char → List Char
  | [] => ansiEsc :: '[' :: params.reverse
  | c :: rest =>
    if ('0' ≤ c ∧ c ≤ '9') ∨ c = ';' then stripPar (c :: params) rest
    else if c = 'm' then stripNorm rest
    else if c = ansiEsc then ansiEsc :: '[' :: params.reverse ++ stripEsc rest
    else ansiEsc :: '[' :: params.reverse ++ (c :: stripNorm rest)

end

/-- Translation of decolorize (src/helpers.ts). -/
def decolorize (s : String) : String := String.mk (stripNorm s.data)

/-- Default ellipsis character of src/helpers.ts. -/
def ELLIPSIS : String := "…"

/-- Translation of ellipsize (src/helpers.ts); len is an Int because the
caller passes len - 1.  JS substring clamps negative end indices, so
this function is total. -/
def ellipsize (str : String) (len : Int) (ell : String) : String :=
  if (str.length : Int) > len then
    String.mk (str.data.take (len - ((decolorize ell).length : Int) - 1).toNat) ++ ell
  else str

/-- Translation of setSpaces (src/helpers.ts): optionally ellipsize,
then pad with spaces to the visible length len; the repeat count is
negative (RangeError, modelled none) when the visible length exceeds
len. -/
def setSpaces (str : String) (len : Nat) (ellipsized : Bool) (ell : String) : Option String :=
  let str1 := if ellipsized ∧ (str.length : Int) > (len : Int) - 1
              then ellipsize str ((len : Int) - 1) ell else str
  (jsRepeat " " ((len : Int) - ((decolorize str1).length : Int))).map (str1 ++ ·)

theorem formatIndex_isSome_iff (i limit : Nat) :
    (formatIndex i limit).isSome
      ↔ (Nat.repr i).length ≤ (Nat.repr (if limit = 0 then 100 else limit)).length := by
  simp only [formatIndex, jsRepeat]
  split
  all_goals split
  all_goals
    first
      | (simp only [Option.map_none', Option.isSome_none, Bool.false_eq_true, false_iff]
         omega)
      | (simp only [Option.map_some', Option.isSome_some, true_iff]
         omega)

theorem formatIndex_overflow : formatIndex 1000 100 = none := by decide

theorem setSpaces_isSome_iff (str : String) (len : Nat) (ell : String) :
    (setSpaces str len false ell).isSome ↔ (decolorize str).length ≤ len := by
  simp only [setSpaces, jsRepeat, Bool.false_eq_true, false_and, if_false]
  split
  next h =>
    simp only [Option.map_none', Option.isSome_none, Bool.false_eq_true, false_iff]
    omega
  next h =>
    simp only [Option.map_some', Option.isSome_some, true_iff]
    omega

theorem setSpaces_overflow : setSpaces "abcdefgh" 4 false "…" = none := by decide

theorem strip_length (l : List Char) :
    (stripNorm l).length ≤ l.length
    ∧ (stripEsc l).length ≤ l.length + 1
    ∧ (∀ p : List Char, (stripPar p l).length ≤ p.length + 2 + l.length) := by
  induction l with
  | nil =>
    refine ⟨by simp [stripNorm], by simp [stripEsc], ?_⟩
    intro p
    simp [stripPar]
  | cons c rest ih =>
    obtain ⟨ihN, ihE, ihP⟩ := ih
    refine ⟨?_, ?_, ?_⟩
    · rw [stripNorm]
      split
      · calc (stripEsc rest).length ≤ rest.length + 1 := ihE
        _ = (c :: rest).length := by simp
      · simp only [List.length_cons]
        omega
    · rw [stripEsc]
      split
      · have h := ihP []
        simp only [List.length_nil] at h
        simp only [List.length_cons]
        omega
      · split
        · simp only [List.length_cons]
          omega
        · simp only [List.length_cons]
          have := ihN
          omega
    · intro p
      rw [stripPar]
      split
      · have h := ihP (c :: p)
        simp only [List.length_cons] at h ⊢
        omega
      · split
        · simp only [List.length_cons]
          omega
        · split
          · simp only [List.length_append, List.length_cons, List.length_reverse]
            have := ihE
            omega
          · simp only [List.length_append, List.length_cons, List.length_reverse]
            have := ihN
            omega

theorem decolorize_length_le (s : String) : (decolorize s).length ≤ s.length :=
  (strip_length s.data).1

/-- Bound for the max fold of formatList (cell width = length + 4). -/
theorem le_foldl_maxpad : ∀ (ms : List String) (acc : Nat),
    (∀ x ∈ ms, x.length + 4 ≤ ms.foldl (fun a el => Nat.max a (el.length + 4)) acc)
    ∧ acc ≤ ms.foldl (fun a el => Nat.max a (el.length + 4)) acc := by
  intro ms
  induction ms with
  | nil => intro acc; exact ⟨by simp, le_rfl⟩
  | cons y ms ih =>
    intro acc
    constructor
    · intro x hx
      rcases List.mem_cons.mp hx with hx | hx
      · subst hx
        calc x.length + 4 ≤ Nat.max acc (x.length + 4) := Nat.le_max_right _ _
        _ ≤ ms.foldl (fun a el => Nat.max a (el.length + 4)) (Nat.max acc (x.length + 4)) :=
            (ih (Nat.max acc (x.length + 4))).2
      · exact (ih (Nat.max acc (y.length + 4))).1 x hx
    · calc acc ≤ Nat.max acc (y.length + 4) := Nat.le_max_left _ _
      _ ≤ ms.foldl (fun a el => Nat.max a (el.length + 4)) (Nat.max acc (y.length + 4)) :=
          (ih (Nat.max acc (y.length + 4))).2

/-- Column-filling loop of formatList (src/helpers.ts): pad each element
to the cell width with setSpaces, inserting the end-of-row padding and
resetting the counter when it reaches the column count. -/
def formatListGo (cols maxCell columns : Nat) (ellipsized : Bool) (ell : String) :
    Nat → List String → Option String
  | _, [] => some ""
  | c, e :: es =>
    (setSpaces e maxCell ellipsized ell).bind fun s =>
      if c = columns then
        (formatListGo cols maxCell columns ellipsized ell 1 es).map
          (fun r => s ++ String.join (List.replicate (cols - maxCell * columns) " ") ++ r)
      else
        (formatListGo cols maxCell columns ellipsized ell (c + 1) es).map (fun r => s ++ r)

/-- Translation of formatList (src/helpers.ts) with the terminal width
cols as an explicit parameter (the code reads process.stdout.columns).
The model covers the regime 1 ≤ maxSize ∧ maxSize + 1 ≤ cols, where the
JS arithmetic is integer-valued; outside it the JS code divides by zero
and propagates NaN or Infinity through the layout (floating-point
behaviour outside a Nat/Int embedding), modelled as none. -/
def formatList (cols : Nat) (elems : List String) (maxSize : Nat)
    (ellipsized : Bool) (ell : String) : Option String :=
  if 1 ≤ maxSize ∧ maxSize + 1 ≤ cols then
    let r := (cols - 1) / maxSize
    let remainder := (cols - 1) % maxSize
    let maxSize1 := maxSize + remainder / r
    let maxFit := elems.foldl (fun a el => Nat.max a (el.length + 4)) 0
    let maxCell := if ellipsized ∧ maxFit > maxSize1 then maxSize1 else maxFit
    let columns := cols / maxCell
    formatListGo cols maxCell columns ellipsized ell 1 elems
  else none

theorem formatListGo_isSome (cols maxCell columns : Nat) (ell : String)
    (elems : List String)
    (hfit : ∀ x ∈ elems, (decolorize x).length ≤ maxCell) :
    ∀ (c : Nat), (formatListGo cols maxCell columns false ell c elems).isSome := by
  induction elems with
  | nil => intro c; rw [formatListGo]; rfl
  | cons e es ih =>
    intro c
    rw [formatListGo]
    have hse : (setSpaces e maxCell false ell).isSome :=
      (setSpaces_isSome_iff e maxCell ell).mpr (hfit e (by simp))
    obtain ⟨s, hs⟩ := Option.isSome_iff_exists.mp hse
    rw [hs]
    simp only [Option.some_bind]
    have hes : ∀ x ∈ es, (decolorize x).length ≤ maxCell :=
      fun x hx => hfit x (by simp [hx])
    split
    · obtain ⟨r, hr⟩ := Option.isSome_iff_exists.mp (ih hes 1)
      rw [hr]
      rfl
    · obtain ⟨r, hr⟩ := Option.isSome_iff_exists.mp (ih hes (c + 1))
      rw [hr]
      rfl


theorem formatList_isSome_iff (cols : Nat) (elems : List String) (maxSize : Nat) (ell : String) :
    (formatList cols elems maxSize false ell).isSome
      ↔ (1 ≤ maxSize ∧ maxSize + 1 ≤ cols) := by
  unfold formatList
  split
  next h =>
    refine Iff.intro (fun _ => h) (fun _ => ?_)
    simp only [Bool.false_eq_true, false_and, if_false]
    apply formatListGo_isSome
    intro x hx
    calc (decolorize x).length ≤ x.length := decolorize_length_le x
    _ ≤ x.length + 4 := by omega
    _ ≤ elems.foldl (fun a el => Nat.max a (el.length + 4)) 0 :=
        (le_foldl_maxpad elems 0).1 x hx
  next h =>
    simp only [Option.isSome_none, Bool.false_eq_true, false_iff]
    exact h

/-- Claim C9 counterexample: formatIndex raises RangeError (modelled as
none) when the index has more digits than the limit, and setSpaces
raises when a non-ellipsized item's visible length exceeds the target
width, so the DisplayFormatter operations are not total. -/
theorem display_totality_counterexample :
    formatIndex 1000 100 = none ∧ setSpaces "abcdefgh" 4 false "…" = none :=
  ⟨by decide, by decide⟩

/-- Claim C9 (amended): every DisplayFormatter operation is a pure
deterministic function, and ellipsize and stripAnsiCodes (decolorize)
are total; but formatIndex returns a value exactly when the index's
digit count is at most the effective limit's digit count, setSpaces
without ellipsizing returns a value exactly when the item's visible
length is at most the column width, and formatList (in the integer
regime of its arithmetic) returns a value exactly when
1 ≤ maxSize < cols. -/
theorem display_formatter_amended :
    (∀ (i limit : Nat), (formatIndex i limit).isSome
        ↔ (Nat.repr i).length ≤ (Nat.repr (if limit = 0 then 100 else limit)).length)
    ∧ (∀ (str : String) (len : Nat) (ell : String),
        (setSpaces str len false ell).isSome ↔ (decolorize str).length ≤ len)
    ∧ (∀ (cols maxSize : Nat) (elems : List String) (ell : String),
        (formatList cols elems maxSize false ell).isSome
          ↔ (1 ≤ maxSize ∧ maxSize + 1 ≤ cols)) :=
  ⟨formatIndex_isSome_iff, setSpaces_isSome_iff,
   fun cols maxSize elems ell => formatList_isSome_iff cols elems maxSize ell⟩


/-! Persistence model (src/FileBackedHistory.ts).  The on-disk content
written by save is JSON.stringify({ history: <entries> }, null, 2);
load runs JSON.parse and reads the history field.  The printer below
reproduces the exact stringify output (two-space indentation, string
escaping of quote, backslash, the \b \t \n \f \r shortcuts and
\u00xx for other control characters); the parser recognises general
JSON (values, arrays, objects, numbers as lexemes with a zero/nonzero
flag, strings with escapes), with recursion fuelled by the input
length. -/

/-- Lowercase hex digit, as produced by JSON.stringify escapes. -/
def hexDigit (n : Nat) : Char := if n < 10 then Char.ofNat (48 + n) else Char.ofNat (87 + n)

/-- JSON.stringify escaping of one character. -/
def encodeChar (c : Char) : List Char :=
  if c = '"' then ['\\', '"']
  else if c = '\\' then ['\\', '\\']
  else if c = Char.ofNat 8 then ['\\', 'b']
  else if c = Char.ofNat 9 then ['\\', 't']
  else if c = Char.ofNat 10 then ['\\', 'n']
  else if c = Char.ofNat 12 then ['\\', 'f']
  else if c = Char.ofNat 13 then ['\\', 'r']
  else if c.toNat < 32 then ['\\', 'u', '0', '0', hexDigit (c.toNat / 16), hexDigit (c.toNat % 16)]
  else [c]

/-- JSON.stringify escaping of a whole string body. -/
def encodeBody (l : List Char) : List Char := l.flatMap encodeChar

/-- Indented array entry lines of JSON.stringify(.., null, 2), joined
by comma-newline. -/
def printEntries : List String → List Char
  | [] => []
  | [e] => ' ' :: ' ' :: ' ' :: ' ' :: '"' :: (encodeBody e.data ++ ['"'])
  | e :: es =>
    ' ' :: ' ' :: ' ' :: ' ' :: '"' :: (encodeBody e.data ++ ['"', ',', '\n'] ++ printEntries es)

/-- Exact output of JSON.stringify({ history: l }, null, 2), the file
content written by FileBackedHistory.save. -/
def printHistoryFile (l : List String) : String :=
  if l = [] then "\x7b\n  \"history\": []\n\x7d"
  else String.mk ("\x7b\n  \"history\": [\n".data ++ printEntries l ++ "\n  ]\n\x7d".data)

/-- JSON values as relevant to JSON.parse: numbers are kept as a
zero/nonzero flag (all the loader needs is JS truthiness). -/
inductive Json where
  | null
  | bool (b : Bool)
  | num (nz : Bool)
  | str (s : List Char)
  | arr (elems : List Json)
  | obj (fields : List (List Char × Json))
  deriving Repr

/-- JSON whitespace (space, newline, tab, carriage return). -/
def isWsChar (c : Char) : Bool := c = ' ' ∨ c = '\n' ∨ c = '\t' ∨ c = Char.ofNat 13

/-- Skip leading JSON whitespace. -/
def skipWs : List Char → List Char
  | [] => []
  | c :: rest => if isWsChar c then skipWs rest else c :: rest

/-- Value of one hex digit, upper or lower case. -/
def hexVal (c : Char) : Option Nat :=
  if '0' ≤ c ∧ c ≤ '9' then some (c.toNat - 48)
  else if 'a' ≤ c ∧ c ≤ 'f' then some (c.toNat - 87)
  else if 'A' ≤ c ∧ c ≤ 'F' then some (c.toNat - 55)
  else none

/-- Single-character JSON string escapes. -/
def escChar (c : Char) : Option Char :=
  if c = '"' then some '"'
  else if c = '\\' then some '\\'
  else if c = '/' then some '/'
  else if c = 'b' then some (Char.ofNat 8)
  else if c = 'f' then some (Char.ofNat 12)
  else if c = 'n' then some (Char.ofNat 10)
  else if c = 'r' then some (Char.ofNat 13)
  else if c = 't' then some (Char.ofNat 9)
  else none

/-- Parse a JSON string body after the opening quote, returning the
decoded characters and the input after the closing quote.  Unescaped
control characters are rejected, as JSON.parse does; \uXXXX uses
Char.ofNat (surrogate code units, which JS would keep as lone
surrogates, fall outside the Char model and map to its default). -/
def pStrBody : List Char → Option (List Char × List Char)
  | [] => none
  | c :: rest =>
    if c = '"' then some ([], rest)
    else if c = '\\' then
      match rest with
      | [] => none
      | e :: rest2 =>
        if e = 'u' then
          match rest2 with
          | h1 :: h2 :: h3 :: h4 :: rest3 =>
            match hexVal h1, hexVal h2, hexVal h3, hexVal h4 with
            | some a, some b, some c2, some d =>
              (pStrBody rest3).map
                (fun p => (Char.ofNat (((a * 16 + b) * 16 + c2) * 16 + d) :: p.1, p.2))
            | _, _, _, _ => none
          | _ => none
        else
          match escChar e with
          | some c2 => (pStrBody rest2).map (fun p => (c2 :: p.1, p.2))
          | none => none
    else if c.toNat < 32 then none
    else (pStrBody rest).map (fun p => (c :: p.1, p.2))

/-- Parse a complete JSON string starting at its opening quote. -/
def pStr : List Char → Option (List Char × List Char)
  | [] => none
  | c :: rest => if c = '"' then pStrBody rest else none

/-- Split off a leading run of decimal digits. -/
def takeDigits : List Char → List Char × List Char
  | [] => ([], [])
  | c :: rest =>
    if '0' ≤ c ∧ c ≤ '9' then
      let p := takeDigits rest
      (c :: p.1, p.2)
    else ([], c :: rest)

/-- Optional fraction part of a JSON number. -/
def pFrac : List Char → Option (List Char × List Char)
  | '.' :: r =>
    let p := takeDigits r
    if p.1 = [] then none else some (p.1, p.2)
  | l => some ([], l)

/-- Exponent digits with optional sign, after e or E. -/
def pExpTail (r : List Char) : Option (List Char) :=
  let r1 := match r with
    | '+' :: t => t
    | '-' :: t => t
    | _ => r
  let p := takeDigits r1
  if p.1 = [] then none else some p.2

/-- Optional exponent part of a JSON number. -/
def pExp : List Char → Option (List Char)
  | 'e' :: r => pExpTail r
  | 'E' :: r => pExpTail r
  | l => some l

/-- JSON number grammar; the result records whether the mantissa has a
nonzero digit (JS truthiness of the parsed number). -/
def pNumber (l : List Char) : Option (Bool × List Char) :=
  let l0 := match l with
    | '-' :: r => r
    | _ => l
  match l0 with
  | [] => none
  | c :: r =>
    (if c = '0' then some (((['0'] : List Char), r))
     else if '1' ≤ c ∧ c ≤ '9' then
       let p := takeDigits r
       some ((c :: p.1, p.2))
     else none).bind fun q =>
    (pFrac q.2).bind fun q2 =>
    (pExp q2.2).map fun r3 =>
    ((q.1 ++ q2.1).any (fun d => d ≠ '0'), r3)

mutual

def pVal : Nat → List Char → Option (Json × List Char)
  | 0, _ => none
  | fuel + 1, l =>
    match l with
    | [] => none
    | c :: rest =>
      if c = '"' then (pStrBody rest).map (fun p => (Json.str p.1, p.2))
      else if c = '[' then
        if (skipWs rest).head? = some ']' then some (Json.arr [], (skipWs rest).tail)
        else (pElems fuel (skipWs rest)).map (fun p => (Json.arr p.1, p.2))
      else if c = '\x7b' then
        if (skipWs rest).head? = some '\x7d' then some (Json.obj [], (skipWs rest).tail)
        else (pMembers fuel (skipWs rest)).map (fun p => (Json.obj p.1, p.2))
      else if c = 't' then
        if ['r', 'u', 'e'].isPrefixOf rest then some (Json.bool true, rest.drop 3) else none
      else if c = 'f' then
        if ['a', 'l', 's', 'e'].isPrefixOf rest then some (Json.bool false, rest.drop 4)
        else none
      else if c = 'n' then
        if ['u', 'l', 'l'].isPrefixOf rest then some (Json.null, rest.drop 3) else none
      else (pNumber (c :: rest)).map (fun p => (Json.num p.1, p.2))

def pElems : Nat → List Char → Option (List Json × List Char)
  | 0, _ => none
  | fuel + 1, l =>
    (pVal fuel l).bind fun q =>
      match skipWs q.2 with
      | ',' :: r2 => (pElems fuel (skipWs r2)).map (fun p => (q.1 :: p.1, p.2))
      | ']' :: r2 => some ([q.1], r2)
      | _ => none

def pMembers : Nat → List Char → Option (List (List Char × Json) × List Char)
  | 0, _ => none
  | fuel + 1, l =>
    (pStr l).bind fun k =>
      match skipWs k.2 with
      | ':' :: r2 =>
        (pVal fuel (skipWs r2)).bind fun v =>
          match skipWs v.2 with
          | ',' :: r4 => (pMembers fuel (skipWs r4)).map (fun p => ((k.1, v.1) :: p.1, p.2))
          | '\x7d' :: r4 => some ([(k.1, v.1)], r4)
          | _ => none
      | _ => none

end

/-- Object field lookup; a later duplicate key wins, as in a JS object
built by JSON.parse. -/
def lookupLast (fields : List (List Char × Json)) (key : List Char) : Option Json :=
  match fields with
  | [] => none
  | (k, v) :: rest =>
    match lookupLast rest key with
    | some r => some r
    | none => if k = key then some v else none

/-- JS truthiness of a parsed JSON value. -/
def jsTruthy : Json → Bool
  | .null => false
  | .bool b => b
  | .num nz => nz
  | .str s => ¬ s.isEmpty
  | .arr _ => true
  | .obj _ => true

/-- Read an array of strings (the shape this.history is assigned). -/
def asStrList : List Json → Option (List String)
  | [] => some []
  | Json.str s :: rest => (asStrList rest).map (String.mk s :: ·)
  | _ => none

/-- Outcome of JSON.parse plus the previousData && previousData.history
check in load: fail is a parse exception (the corruption branch),
okHistory l is a truthy history field holding an array of strings,
and other covers every remaining parse success: no truthy history
field (load assigns nothing), or a truthy history value that is not an
array of strings (load would assign a non-string-array value, a state
outside this typed model and not reached by any claim). -/
inductive ParseOutcome where
  | fail
  | okHistory (l : List String)
  | other
  deriving Repr, DecidableEq

/-- Model of JSON.parse on the file content followed by the history
extraction of FileBackedHistory.load. -/
def parseHistoryContent (s : String) : ParseOutcome :=
  match pVal (s.data.length + 1) (skipWs s.data) with
  | none => .fail
  | some (v, rest) =>
    if skipWs rest = [] then
      match v with
      | Json.obj fields =>
        match lookupLast fields "history".data with
        | some hv =>
          if jsTruthy hv then
            match hv with
            | Json.arr elems =>
              match asStrList elems with
              | some l => .okHistory l
              | none => .other
            | _ => .other
          else .other
        | none => .other
      | _ => .other
    else .fail


theorem hexVal_hexDigit (n : Nat) (h : n < 16) : hexVal (hexDigit n) = some n := by
  have hfin : ∀ m : Fin 16, hexVal (hexDigit m.val) = some m.val := by decide
  exact hfin ⟨n, h⟩

theorem pStrBody_quote (rest : List Char) : pStrBody ('"' :: rest) = some ([], rest) := by
  unfold pStrBody
  rfl

theorem pStrBody_esc (e : Char) (rest : List Char) (h : ¬ e = 'u') :
    pStrBody ('\\' :: e :: rest)
      = match escChar e with
        | some c2 => (pStrBody rest).map (fun p => (c2 :: p.1, p.2))
        | none => none := by
  conv_lhs => rw [pStrBody.eq_def]
  simp only [if_neg (by decide : ¬('\\' : Char) = '"'), if_pos rfl, if_neg h]
  exact if_pos trivial

theorem pStrBody_u (d1 d2 d3 d4 : Char) (rest : List Char) :
    pStrBody ('\\' :: 'u' :: d1 :: d2 :: d3 :: d4 :: rest)
      = match hexVal d1, hexVal d2, hexVal d3, hexVal d4 with
        | some a, some b, some c2, some d =>
          (pStrBody rest).map
            (fun p => (Char.ofNat (((a * 16 + b) * 16 + c2) * 16 + d) :: p.1, p.2))
        | _, _, _, _ => none := by
  conv_lhs => rw [pStrBody.eq_def]
  simp

theorem pStrBody_lit (c : Char) (rest : List Char)
    (h1 : ¬ c = '"') (h2 : ¬ c = '\\') (h8 : ¬ c.toNat < 32) :
    pStrBody (c :: rest) = (pStrBody rest).map (fun p => (c :: p.1, p.2)) := by
  conv_lhs => rw [pStrBody.eq_def]
  simp only [if_neg h1, if_neg h2, if_neg h8]

theorem pStrBody_encode (s : List Char) :
    ∀ (rest : List Char), pStrBody (encodeBody s ++ '"' :: rest) = some (s, rest) := by
  induction s with
  | nil =>
    intro rest
    have h0 : encodeBody ([] : List Char) ++ '"' :: rest = '"' :: rest := by
      simp [encodeBody]
    rw [h0, pStrBody_quote]
  | cons c s ih =>
    intro rest
    have hsplit : encodeBody (c :: s) ++ '"' :: rest
        = encodeChar c ++ (encodeBody s ++ '"' :: rest) := by
      simp [encodeBody, List.append_assoc]
    rw [hsplit]
    by_cases h1 : c = '"'
    · subst h1
      rw [show encodeChar '"' = ['\\', '"'] from rfl]
      simp only [List.cons_append, List.nil_append]
      rw [pStrBody_esc '"' _ (by decide), show escChar '"' = some '"' from rfl, ih rest]
      rfl
    · by_cases h2 : c = '\\'
      · subst h2
        rw [show encodeChar '\\' = ['\\', '\\'] from rfl]
        simp only [List.cons_append, List.nil_append]
        rw [pStrBody_esc '\\' _ (by decide), show escChar '\\' = some '\\' from rfl, ih rest]
        rfl
      · by_cases h3 : c = Char.ofNat 8
        · subst h3
          rw [show encodeChar (Char.ofNat 8) = ['\\', 'b'] from rfl]
          simp only [List.cons_append, List.nil_append]
          rw [pStrBody_esc 'b' _ (by decide),
            show escChar 'b' = some (Char.ofNat 8) from rfl, ih rest]
          rfl
        · by_cases h4 : c = Char.ofNat 9
          · subst h4
            rw [show encodeChar (Char.ofNat 9) = ['\\', 't'] from rfl]
            simp only [List.cons_append, List.nil_append]
            rw [pStrBody_esc 't' _ (by decide),
              show escChar 't' = some (Char.ofNat 9) from rfl, ih rest]
            rfl
          · by_cases h5 : c = Char.ofNat 10
            · subst h5
              rw [show encodeChar (Char.ofNat 10) = ['\\', 'n'] from rfl]
              simp only [List.cons_append, List.nil_append]
              rw [pStrBody_esc 'n' _ (by decide),
                show escChar 'n' = some (Char.ofNat 10) from rfl, ih rest]
              rfl
            · by_cases h6 : c = Char.ofNat 12
              · subst h6
                rw [show encodeChar (Char.ofNat 12) = ['\\', 'f'] from rfl]
                simp only [List.cons_append, List.nil_append]
                rw [pStrBody_esc 'f' _ (by decide),
                  show escChar 'f' = some (Char.ofNat 12) from rfl, ih rest]
                rfl
              · by_cases h7 : c = Char.ofNat 13
                · subst h7
                  rw [show encodeChar (Char.ofNat 13) = ['\\', 'r'] from rfl]
                  simp only [List.cons_append, List.nil_append]
                  rw [pStrBody_esc 'r' _ (by decide),
                    show escChar 'r' = some (Char.ofNat 13) from rfl, ih rest]
                  rfl
                · by_cases h8 : c.toNat < 32
                  · have henc : encodeChar c = ['\\', 'u', '0', '0',
                        hexDigit (c.toNat / 16), hexDigit (c.toNat % 16)] := by
                      unfold encodeChar
                      rw [if_neg h1, if_neg h2, if_neg h3, if_neg h4, if_neg h5, if_neg h6,
                        if_neg h7, if_pos h8]
                    rw [henc]
                    simp only [List.cons_append, List.nil_append]
                    rw [pStrBody_u]
                    rw [hexVal_hexDigit (c.toNat / 16) (by omega),
                      hexVal_hexDigit (c.toNat % 16) (by omega)]
                    rw [show hexVal '0' = some 0 from rfl]
                    show (pStrBody (encodeBody s ++ '"' :: rest)).map
                        (fun p => (Char.ofNat (((0 * 16 + 0) * 16 + c.toNat / 16) * 16
                          + c.toNat % 16) :: p.1, p.2)) = _
                    rw [ih rest]
                    have hval : ((0 * 16 + 0) * 16 + c.toNat / 16) * 16 + c.toNat % 16
                        = c.toNat := by omega
                    rw [hval, Char.ofNat_toNat]
                    rfl
                  · have henc : encodeChar c = [c] := by
                      unfold encodeChar
                      rw [if_neg h1, if_neg h2, if_neg h3, if_neg h4, if_neg h5, if_neg h6,
                        if_neg h7, if_neg h8]
                    rw [henc]
                    simp only [List.cons_append, List.nil_append]
                    rw [pStrBody_lit c _ h1 h2 h8, ih rest]
                    rfl

theorem pElems_succ (f : Nat) (l : List Char) :
    pElems (f + 1) l
      = (pVal f l).bind fun q =>
          match skipWs q.2 with
          | ',' :: r2 => (pElems f (skipWs r2)).map (fun p => (q.1 :: p.1, p.2))
          | ']' :: r2 => some ([q.1], r2)
          | _ => none := rfl

theorem pMembers_succ (f : Nat) (l : List Char) :
    pMembers (f + 1) l
      = (pStr l).bind fun k =>
          match skipWs k.2 with
          | ':' :: r2 =>
            (pVal f (skipWs r2)).bind fun v =>
              match skipWs v.2 with
              | ',' :: r4 => (pMembers f (skipWs r4)).map (fun p => ((k.1, v.1) :: p.1, p.2))
              | '\x7d' :: r4 => some ([(k.1, v.1)], r4)
              | _ => none
          | _ => none := rfl

theorem pVal_quote (f : Nat) (l : List Char) :
    pVal (f + 1) ('"' :: l) = (pStrBody l).map (fun p => (Json.str p.1, p.2)) := by
  conv_lhs => rw [pVal.eq_def]
  simp

theorem pVal_arr (f : Nat) (l : List Char) :
    pVal (f + 1) ('[' :: l)
      = (if (skipWs l).head? = some ']' then some (Json.arr [], (skipWs l).tail)
         else (pElems f (skipWs l)).map (fun p => (Json.arr p.1, p.2))) := by
  conv_lhs => rw [pVal.eq_def]
  simp

theorem pVal_obj (f : Nat) (l : List Char) :
    pVal (f + 1) ('\x7b' :: l)
      = (if (skipWs l).head? = some '\x7d' then some (Json.obj [], (skipWs l).tail)
         else (pMembers f (skipWs l)).map (fun p => (Json.obj p.1, p.2))) := by
  conv_lhs => rw [pVal.eq_def]
  simp

/-- Continuation shape of the printed entries as consumed by the parser:
after each entry either the separator line or the closing bracket line. -/
def entriesTail : List String → List Char → List Char
  | [], rest => '\n' :: ' ' :: ' ' :: ']' :: rest
  | e :: es, rest =>
    ',' :: '\n' :: ' ' :: ' ' :: ' ' :: ' ' :: '"'
      :: (encodeBody e.data ++ '"' :: entriesTail es rest)

theorem printEntries_decomp : ∀ (es : List String) (e : String) (rest : List Char),
    printEntries (e :: es) ++ '\n' :: ' ' :: ' ' :: ']' :: rest
      = ' ' :: ' ' :: ' ' :: ' ' :: '"' :: (encodeBody e.data ++ '"' :: entriesTail es rest) := by
  intro es
  induction es with
  | nil =>
    intro e rest
    simp [printEntries, entriesTail, List.append_assoc]
  | cons e2 es ih =>
    intro e rest
    show ' ' :: ' ' :: ' ' :: ' ' :: '"'
        :: ((encodeBody e.data ++ ['"', ',', '\n'] ++ printEntries (e2 :: es))
          ++ '\n' :: ' ' :: ' ' :: ']' :: rest) = _
    rw [entriesTail]
    simp only [List.append_assoc, List.cons_append, List.nil_append]
    rw [ih e2 rest]

theorem skipWs_nlsp2 (rest : List Char) :
    skipWs ('\n' :: ' ' :: ' ' :: rest) = skipWs rest := by
  simp [skipWs, isWsChar]

theorem skipWs_sp (rest : List Char) : skipWs (' ' :: rest) = skipWs rest := by
  simp [skipWs, isWsChar]

theorem skipWs_nl (rest : List Char) : skipWs ('\n' :: rest) = skipWs rest := by
  simp [skipWs, isWsChar]

theorem skipWs_nonws (c : Char) (rest : List Char) (h : isWsChar c = false) :
    skipWs (c :: rest) = c :: rest := by
  rw [skipWs, h]
  rfl

theorem pElems_entries : ∀ (es : List String) (e : String) (f : Nat) (rest : List Char),
    es.length + 2 ≤ f →
    pElems f ('"' :: (encodeBody e.data ++ '"' :: entriesTail es rest))
      = some ((e :: es).map (fun s => Json.str s.data), rest) := by
  intro es
  induction es with
  | nil =>
    intro e f rest hf
    match f, hf with
    | f2 + 2, _ =>
      rw [pElems_succ (f2 + 1)]
      rw [pVal_quote f2]
      rw [pStrBody_encode e.data]
      simp only [Option.map_some', Option.some_bind]
      rw [entriesTail]
      rw [skipWs_nl, skipWs_sp, skipWs_sp, skipWs_nonws ']' _ (by decide)]
      rfl
  | cons e2 es ih =>
    intro e f rest hf
    match f, hf with
    | f2 + 2, hf =>
      rw [pElems_succ (f2 + 1)]
      rw [pVal_quote f2]
      rw [pStrBody_encode e.data]
      simp only [Option.map_some', Option.some_bind]
      rw [entriesTail]
      rw [skipWs_nonws ',' _ (by decide)]
      show (pElems (f2 + 1)
          (skipWs ('\n' :: ' ' :: ' ' :: ' ' :: ' ' :: '"'
            :: (encodeBody e2.data ++ '"' :: entriesTail es rest)))).map _ = _
      rw [skipWs_nl, skipWs_sp, skipWs_sp, skipWs_sp, skipWs_sp,
        skipWs_nonws '"' _ (by decide)]
      rw [ih e2 (f2 + 1) rest (by simp at hf ⊢; omega)]
      rfl

theorem asStrList_map : ∀ (l : List String),
    asStrList (l.map (fun s => Json.str s.data)) = some l := by
  intro l
  induction l with
  | nil => rfl
  | cons e es ih =>
    show (asStrList (es.map (fun s => Json.str s.data))).map _ = _
    rw [ih]
    rfl

theorem pMembers_keyval (f : Nat) (k : List Char) (X : List Char) :
    pMembers (f + 1) ('"' :: (encodeBody k ++ '"' :: ':' :: X))
      = (pVal f (skipWs X)).bind fun v =>
          match skipWs v.2 with
          | ',' :: r4 => (pMembers f (skipWs r4)).map (fun p => ((k, v.1) :: p.1, p.2))
          | '\x7d' :: r4 => some ([(k, v.1)], r4)
          | _ => none := by
  rw [pMembers_succ]
  rw [show pStr ('"' :: (encodeBody k ++ '"' :: ':' :: X))
        = pStrBody (encodeBody k ++ '"' :: (':' :: X)) from rfl]
  rw [pStrBody_encode k]
  simp only [Option.some_bind]
  rw [skipWs_nonws ':' _ (by decide)]
  rfl

theorem pVal_print_nonempty : ∀ (f : Nat) (e : String) (es : List String),
    es.length + 5 ≤ f →
    pVal f ('\x7b' :: '\n' :: ' ' :: ' ' :: '"' :: 'h' :: 'i' :: 's' :: 't' :: 'o' :: 'r'
        :: 'y' :: '"' :: ':' :: ' ' :: '[' :: '\n' :: ' ' :: ' ' :: ' ' :: ' ' :: '"'
        :: (encodeBody e.data ++ '"' :: entriesTail es ('\n' :: '\x7d' :: [])))
      = some (Json.obj [("history".data,
          Json.arr ((e :: es).map (fun s => Json.str s.data)))], []) := by
  intro f e es hf
  match f, hf with
  | f3 + 3, hf =>
    rw [pVal_obj (f3 + 2)]
    rw [skipWs_nl, skipWs_sp, skipWs_sp, skipWs_nonws '"' _ (by decide)]
    rw [if_neg (by simp : ¬ (('"' :: 'h' :: 'i' :: 's' :: 't' :: 'o' :: 'r' :: 'y' :: '"'
      :: ':' :: ' ' :: '[' :: '\n' :: ' ' :: ' ' :: ' ' :: ' ' :: '"'
      :: (encodeBody e.data ++ '"' :: entriesTail es ('\n' :: '\x7d' :: []))).head?
        = some '\x7d'))]
    rw [show ('"' :: 'h' :: 'i' :: 's' :: 't' :: 'o' :: 'r' :: 'y' :: '"' :: ':' :: ' '
          :: '[' :: '\n' :: ' ' :: ' ' :: ' ' :: ' ' :: '"'
          :: (encodeBody e.data ++ '"' :: entriesTail es ('\n' :: '\x7d' :: [])))
        = ('"' :: (encodeBody "history".data ++ '"' :: ':' :: (' ' :: '[' :: '\n' :: ' '
          :: ' ' :: ' ' :: ' ' :: '"'
          :: (encodeBody e.data ++ '"' :: entriesTail es ('\n' :: '\x7d' :: []))))) from rfl]
    rw [pMembers_keyval (f3 + 1)]
    rw [skipWs_sp, skipWs_nonws '[' _ (by decide)]
    rw [pVal_arr f3]
    rw [skipWs_nl, skipWs_sp, skipWs_sp, skipWs_sp, skipWs_sp,
      skipWs_nonws '"' _ (by decide)]
    rw [if_neg (by simp : ¬ (('"'
      :: (encodeBody e.data ++ '"' :: entriesTail es ('\n' :: '\x7d' :: []))).head?
        = some ']'))]
    rw [pElems_entries es e f3 ('\n' :: '\x7d' :: []) (by simp at hf ⊢; omega)]
    simp only [Option.map_some', Option.some_bind]
    rw [skipWs_nl, skipWs_nonws '\x7d' _ (by decide)]
    rfl

theorem entriesTail_length : ∀ (es : List String) (rest : List Char),
    es.length ≤ (entriesTail es rest).length := by
  intro es
  induction es with
  | nil => intro rest; simp [entriesTail]
  | cons e2 es ih =>
    intro rest
    have h := ih rest
    simp only [entriesTail, List.length_cons, List.length_append]
    omega

theorem parse_print (l : List String) :
    parseHistoryContent (printHistoryFile l) = ParseOutcome.okHistory l := by
  match l with
  | [] => decide
  | e :: es =>
    have hdata : (printHistoryFile (e :: es)).data
        = '\x7b' :: '\n' :: ' ' :: ' ' :: '"' :: 'h' :: 'i' :: 's' :: 't' :: 'o' :: 'r'
          :: 'y' :: '"' :: ':' :: ' ' :: '[' :: '\n' :: ' ' :: ' ' :: ' ' :: ' ' :: '"'
          :: (encodeBody e.data ++ '"' :: entriesTail es ('\n' :: '\x7d' :: [])) := by
      rw [printHistoryFile, if_neg (by simp)]
      show ("\x7b\n  \"history\": [\n".data ++ printEntries (e :: es) ++ "\n  ]\n\x7d".data) = _
      rw [show ("\n  ]\n\x7d" : String).data
            = '\n' :: ' ' :: ' ' :: ']' :: ('\n' :: '\x7d' :: []) from rfl]
      rw [List.append_assoc, printEntries_decomp es e ('\n' :: '\x7d' :: [])]
      rfl
    have hlen : es.length + 5 ≤ (printHistoryFile (e :: es)).data.length + 1 := by
      rw [hdata]
      have h := entriesTail_length es ('\n' :: '\x7d' :: [])
      simp only [List.length_cons, List.length_append]
      omega
    have hskip : skipWs (printHistoryFile (e :: es)).data
        = (printHistoryFile (e :: es)).data := by
      rw [hdata]
      exact skipWs_nonws '\x7b' _ (by decide)
    have hparse := pVal_print_nonempty ((printHistoryFile (e :: es)).data.length + 1)
      e es hlen
    unfold parseHistoryContent
    rw [hskip]
    rw [show pVal ((printHistoryFile (e :: es)).data.length + 1)
          (printHistoryFile (e :: es)).data
        = pVal ((printHistoryFile (e :: es)).data.length + 1)
          ('\x7b' :: '\n' :: ' ' :: ' ' :: '"' :: 'h' :: 'i' :: 's' :: 't' :: 'o' :: 'r'
            :: 'y' :: '"' :: ':' :: ' ' :: '[' :: '\n' :: ' ' :: ' ' :: ' ' :: ' ' :: '"'
            :: (encodeBody e.data ++ '"' :: entriesTail es ('\n' :: '\x7d' :: [])))
        from by rw [hdata]]
    rw [hparse]
    simp only [lookupLast, jsTruthy, skipWs, List.isEmpty_nil, reduceIte]
    rw [asStrList_map (e :: es)]

/-- Configuration of FileBackedHistory: the save flag, the capacity
limit and the blacklist (folder and fileName only shape the path,
which the model takes as an explicit argument). -/
structure FBConfig where
  save : Bool
  limit : Nat
  blacklist : List String
  deriving Repr, DecidableEq

/-- State of a FileBackedHistory instance (historyIndex starts at 0 in
its constructor). -/
structure FBState where
  entries : List String
  index : Int
  current : String
  deriving Repr, DecidableEq

namespace FileBackedHistory

/-- Translation of FileBackedHistory._getLimitedHistory. -/
def getLimitedHistory (cfg : FBConfig) (h : List String) : List String :=
  if cfg.limit ≠ 0 ∧ h.length > cfg.limit then h.drop (h.length - cfg.limit) else h

/-- File content written by FileBackedHistory.save (the serialized
capacity-limited snapshot). -/
def saveContent (cfg : FBConfig) (entries : List String) : String :=
  printHistoryFile (getLimitedHistory cfg entries)

/-- Translation of FileBackedHistory.save: returns the content written,
or none when directory creation fails (the error is logged and save
returns without throwing). -/
def save (cfg : FBConfig) (entries : List String) (dirOk : Bool) : Option String :=
  if dirOk then some (saveContent cfg entries) else none

/-- Translation of FileBackedHistory.add: same entry update as
EphemeralHistory.add, then a save when config.save is set.  The second
component is the file content written (none when nothing is written). -/
def add (cfg : FBConfig) (st : FBState) (v : String) (dirOk : Bool) :
    FBState × Option String :=
  if v ∈ cfg.blacklist then (st, none)
  else
    let entries :=
      if st.entries.getLast? = some v then st.entries
      else
        let e := st.entries ++ [v]
        if cfg.limit ≠ 0 ∧ e.length > cfg.limit then e.drop 1 else e
    let st1 : FBState := { st with entries := entries, index := (entries.length : Int) }
    (st1, if cfg.save then save cfg st1.entries dirOk else none)

/-- Translation of FileBackedHistory.load.  content is the file text
(none when the file does not exist), renameOk tells whether the backup
renameSync succeeds, now is Date.now().  The second component is the
backup path created by corruption recovery.  Every branch of the JS
code catches its exceptions, so the model is a total function: load
never throws to the caller. -/
def load (content : Option String) (renameOk : Bool) (now : Nat)
    (file : String) (st : FBState) : FBState × Option String :=
  match content with
  | none => (st, none)
  | some text =>
    match parseHistoryContent text with
    | .okHistory h => ({ st with entries := h, index := (h.length : Int) }, none)
    | .other => (st, none)
    | .fail =>
      ({ st with entries := [], index := 0 },
       if renameOk then some (file ++ ".corrupted-" ++ toString now) else none)

end FileBackedHistory

/-- Claim C6: save followed by load on the same path reproduces exactly
the capacity-limited entry list that was in memory at save time; the
round-trip through the on-disk JSON format is the identity on the
capacity-limited snapshot, for every entry list. -/
theorem persistence_round_trip (cfg : FBConfig) (entries : List String) (st : FBState)
    (renameOk : Bool) (now : Nat) (file : String) :
    FileBackedHistory.load (some (FileBackedHistory.saveContent cfg entries))
        renameOk now file st
      = (⟨FileBackedHistory.getLimitedHistory cfg entries,
          ((FileBackedHistory.getLimitedHistory cfg entries).length : Int),
          st.current⟩, none) := by
  rw [show FileBackedHistory.load (some (FileBackedHistory.saveContent cfg entries))
        renameOk now file st
      = (match parseHistoryContent (FileBackedHistory.saveContent cfg entries) with
         | .okHistory h => ({ st with entries := h, index := (h.length : Int) }, none)
         | .other => (st, none)
         | .fail => ({ st with entries := [], index := 0 },
             if renameOk then some (file ++ ".corrupted-" ++ toString now) else none))
      from rfl]
  rw [FileBackedHistory.saveContent, parse_print]

/-- Claim C7: when the persisted file exists but its content is not
parseable, load yields an empty in-memory history with cursor 0,
renames the bad file aside to <file>.corrupted-<timestamp>, and (being
a total function, with every catch block modelled) throws nothing; a
failure of the rename itself (renameOk = false) still yields the
empty-history fallback. -/
theorem corruption_recovery (content : String) (renameOk : Bool) (now : Nat)
    (file : String) (st : FBState)
    (hfail : parseHistoryContent content = ParseOutcome.fail) :
    FileBackedHistory.load (some content) renameOk now file st
      = (⟨[], 0, st.current⟩,
         if renameOk then some (file ++ ".corrupted-" ++ toString now) else none) := by
  rw [show FileBackedHistory.load (some content) renameOk now file st
      = (match parseHistoryContent content with
         | .okHistory h => ({ st with entries := h, index := (h.length : Int) }, none)
         | .other => (st, none)
         | .fail => ({ st with entries := [], index := 0 },
             if renameOk then some (file ++ ".corrupted-" ++ toString now) else none))
      from rfl]
  rw [hfail]

/-- Witness for corruption_recovery on the unparseable content
"not json". -/
theorem corruption_recovery_witness :
    FileBackedHistory.load (some "not json") true 7 "h.json" ⟨["x"], 1, ""⟩
      = (⟨[], 0, ""⟩, some "h.json.corrupted-7") := by
  have h := corruption_recovery "not json" true 7 "h.json" ⟨["x"], 1, ""⟩ (by decide)
  exact h.trans (by decide)

/-- Claim C8 counterexample: a persisted file holding two entries loaded
under capacity 1 leaves two entries in memory, exceeding the capacity:
load does not truncate. -/
theorem load_truncation_counterexample :
    ((FileBackedHistory.load (some (printHistoryFile ["a", "b"])) true 0 "h"
        ⟨[], 0, ""⟩).1.entries.length = 2)
    ∧ ¬ ((FileBackedHistory.load (some (printHistoryFile ["a", "b"])) true 0 "h"
        ⟨[], 0, ""⟩).1.entries.length ≤ (⟨true, 1, []⟩ : FBConfig).limit) := by
  constructor
  · rw [show FileBackedHistory.load (some (printHistoryFile ["a", "b"])) true 0 "h"
        ⟨[], 0, ""⟩ = (⟨["a", "b"], 2, ""⟩, none) from by decide]
    rfl
  · rw [show FileBackedHistory.load (some (printHistoryFile ["a", "b"])) true 0 "h"
        ⟨[], 0, ""⟩ = (⟨["a", "b"], 2, ""⟩, none) from by decide]
    decide


/-- Claim C8 (amended): load installs the persisted entry list exactly
as parsed, without truncation; the capacity limit is applied on the
save side, whose snapshot never exceeds a nonzero limit. -/
theorem load_no_truncation (content : String) (l : List String) (renameOk : Bool)
    (now : Nat) (file : String) (st : FBState)
    (hok : parseHistoryContent content = ParseOutcome.okHistory l) :
    (FileBackedHistory.load (some content) renameOk now file st).1.entries = l
    ∧ (∀ (cfg : FBConfig) (entries : List String), cfg.limit ≠ 0 →
        (FileBackedHistory.getLimitedHistory cfg entries).length ≤ cfg.limit) := by
  constructor
  · rw [show FileBackedHistory.load (some content) renameOk now file st
        = (match parseHistoryContent content with
           | .okHistory h => ({ st with entries := h, index := (h.length : Int) }, none)
           | .other => (st, none)
           | .fail => ({ st with entries := [], index := 0 },
               if renameOk then some (file ++ ".corrupted-" ++ toString now) else none))
        from rfl]
    rw [hok]
  · intro cfg entries hlim
    unfold FileBackedHistory.getLimitedHistory
    split
    next h => simp only [List.length_drop]; omega
    next h => simp only [not_and, gt_iff_lt, not_lt] at h; exact h hlim

/-- Witness for load_no_truncation at a concrete two-entry file. -/
theorem load_no_truncation_witness :
    (FileBackedHistory.load (some (printHistoryFile ["a", "b"])) true 0 "h"
        ⟨[], 0, ""⟩).1.entries = ["a", "b"] :=
  (load_no_truncation (printHistoryFile ["a", "b"]) ["a", "b"] true 0 "h" ⟨[], 0, ""⟩
    (parse_print ["a", "b"])).1

/-- Claim C10: with persistence enabled (and the history directory
available), every non-blacklisted add writes the history file, and a
blacklisted add writes nothing. -/
theorem add_always_saves (cfg : FBConfig) (st : FBState) (v : String) (dirOk : Bool)
    (hsave : cfg.save = true) (hdir : dirOk = true) :
    (FileBackedHistory.add cfg st v dirOk).2
      = if v ∈ cfg.blacklist then none
        else some (FileBackedHistory.saveContent cfg
          (FileBackedHistory.add cfg st v dirOk).1.entries) := by
  unfold FileBackedHistory.add FileBackedHistory.save
  by_cases hb : v ∈ cfg.blacklist
  · rw [if_pos hb, if_pos hb]
  · rw [if_neg hb, if_neg hb]
    simp only [hsave, hdir, if_true]

/-- Witness for add_always_saves on a duplicate add: the in-memory list
is unchanged yet the file is written. -/
theorem add_always_saves_witness :
    (FileBackedHistory.add ⟨true, 100, []⟩ ⟨["x"], 1, ""⟩ "x" true).2
      = some (FileBackedHistory.saveContent ⟨true, 100, []⟩ ["x"])
    ∧ (FileBackedHistory.add ⟨true, 100, []⟩ ⟨["x"], 1, ""⟩ "x" true).1.entries = ["x"] := by
  constructor
  · have h := add_always_saves ⟨true, 100, []⟩ ⟨["x"], 1, ""⟩ "x" true rfl rfl
    rw [h]
    rw [if_neg (by decide)]
    rw [show (FileBackedHistory.add ⟨true, 100, []⟩ ⟨["x"], 1, ""⟩ "x" true).1.entries
          = ["x"] from by decide]
  · decide
